import Mathlib

/-!
Verification of the unIMG-2 WRLD extractor (`src/unimg.c`).

Shallow embedding of the extraction pipeline: byte buffers are `List Nat`
(each element a byte value `< 256`), machine integers are `Nat` with explicit
`% 2^32` where a C cast truncates, fallible I/O is modelled by explicit
success flags, and the external zlib decoder is a parameter of the resolver.
-/

namespace UnImg

/-- Embeds `read_u32le` (unimg.c:79-82): little-endian 32-bit read of four
consecutive bytes.  On byte-valued lists `b[off] | b[off+1]<<8 | ...` equals
this sum of disjoint ranges. -/
def read_u32le (b : List Nat) (off : Nat) : Nat :=
  b.getD off 0 + b.getD (off+1) 0 * 256 + b.getD (off+2) 0 * 65536
    + b.getD (off+3) 0 * 16777216

/-- Embeds the `WrldHeader` struct (unimg.c:42-51); all fields are `uint32_t`. -/
structure WrldHeader where
  lvz_off : Nat
  wrld_type : Nat
  total_size : Nat
  global0 : Nat
  global1 : Nat
  global_count : Nat
  continuation : Nat
  reserved : Nat
deriving Repr, DecidableEq

/-- Header built at match position `j` (unimg.c:257-266).  The C code stores
`(uint32_t)j`, hence the `% 2^32` on the offset. -/
def mkHeader (d : List Nat) (j : Nat) : WrldHeader :=
  { lvz_off := j % 4294967296
    wrld_type := read_u32le d (j+4)
    total_size := read_u32le d (j+8)
    global0 := read_u32le d (j+12)
    global1 := read_u32le d (j+16)
    global_count := read_u32le d (j+20)
    continuation := read_u32le d (j+24)
    reserved := read_u32le d (j+28) }

/-- The 4-byte marker test `d[j]=='D' && d[j+1]=='L' && d[j+2]=='R' && d[j+3]=='W'`
(unimg.c:253); 68, 76, 82, 87 are the ASCII codes. -/
def isMarkerAt (d : List Nat) (j : Nat) : Bool :=
  (d.getD j 0 == 68) && (d.getD (j+1) 0 == 76) &&
  (d.getD (j+2) 0 == 82) && (d.getD (j+3) 0 == 87)

/-- Embeds the inner `for` loop of `scan_slave_headers` (unimg.c:252-254):
starting at `i`, advance while `j + 4 ≤ n` until the marker matches; the loop
variable at exit is returned.  Structured as fuel recursion; `d.length` fuel
always suffices since the loop advances only while `i + 4 ≤ d.length`. -/
def findMarkerAux (d : List Nat) : Nat → Nat → Nat
  | i, 0 => i
  | i, fuel+1 =>
    if i + 4 ≤ d.length then
      (if isMarkerAt d i then i else findMarkerAux d (i+1) fuel)
    else i

/-- The marker search of `scan_slave_headers` from position `i`. -/
def findMarker (d : List Nat) (i : Nat) : Nat := findMarkerAux d i d.length

/-- Embeds the outer `while (1)` loop of `scan_slave_headers` (unimg.c:250-276):
find the next marker, stop when fewer than 32 bytes remain, read the seven
fields, keep the candidate only when `total_size ≥ 32 && continuation != 0`,
and resume from `j + 4`.  Fuel recursion; `d.length + 1` fuel suffices since
each iteration advances the cursor by at least 4. -/
def scanLoop (d : List Nat) : Nat → Nat → List WrldHeader
  | _, 0 => []
  | i, fuel+1 =>
    let j := findMarker d i
    if j + 32 ≤ d.length then
      (if 32 ≤ (mkHeader d j).total_size ∧ (mkHeader d j).continuation ≠ 0 then
        mkHeader d j :: scanLoop d (j+4) fuel
      else scanLoop d (j+4) fuel)
    else []

/-- The raw hit list collected by the scan loop, before sort and dedup. -/
def scanHits (d : List Nat) : List WrldHeader := scanLoop d 0 (d.length + 1)

/-- Embeds `cmp_by_lvz_off` (unimg.c:238-244), the `qsort` comparator. -/
def cmp_by_lvz_off (x y : WrldHeader) : Int :=
  if x.lvz_off < y.lvz_off then -1 else if y.lvz_off < x.lvz_off then 1 else 0

/-- The ordering induced by `cmp_by_lvz_off`: `x` may precede `y` exactly when
the comparator does not demand the opposite order. -/
def byOff (x y : WrldHeader) : Prop := x.lvz_off ≤ y.lvz_off

instance : DecidableRel byOff := fun x y => Nat.decLe x.lvz_off y.lvz_off

instance : IsTotal WrldHeader byOff := ⟨fun x y => Nat.le_total x.lvz_off y.lvz_off⟩

instance : IsTrans WrldHeader byOff := ⟨fun _ _ _ => Nat.le_trans⟩

theorem byOff_iff_cmp (x y : WrldHeader) : byOff x y ↔ cmp_by_lvz_off x y ≤ 0 := by
  unfold byOff cmp_by_lvz_off
  split_ifs with h1 h2 <;> omega

/-- Embeds the dedup pass of `scan_slave_headers` (unimg.c:280-286): keep an
element exactly when nothing has been kept yet (`w == 0`) or its `lvz_off`
differs from the last kept element's.  The `Option Nat` argument is the last
kept offset. -/
def dedupAdj : Option Nat → List WrldHeader → List WrldHeader
  | _, [] => []
  | none, a :: rest => a :: dedupAdj (some a.lvz_off) rest
  | some o, a :: rest =>
    if a.lvz_off = o then dedupAdj (some o) rest
    else a :: dedupAdj (some a.lvz_off) rest

/-- The guarantee C gives for the result of `qsort(..., cmp_by_lvz_off)`
(unimg.c:279): a permutation of the input, sorted under the comparator.  C
leaves the relative order of equal-`lvz_off` entries unspecified, so every
`s` satisfying this contract is a possible `qsort` result, and properties of
the sort-and-dedup pass hold for the program only when they hold for all
such `s`. -/
def qsortByOff (s l : List WrldHeader) : Prop :=
  List.Perm s l ∧ List.Pairwise byOff s

/-- The sort-and-dedup step of `scan_slave_headers` (unimg.c:279-286), with
the unspecified-order `qsort` instantiated by one particular run satisfying
`qsortByOff` (a comparison sort over the same key).  In the pipeline this
choice is immaterial: the scan hits it is applied to carry strictly
increasing offsets, so every valid `qsort` run produces the same list. -/
def finalize (l : List WrldHeader) : List WrldHeader :=
  dedupAdj none (List.insertionSort byOff l)

/-- The dedup pass of unimg.c:280-286 expressed on the offset values alone
(the kept/dropped decision reads only `lvz_off`). -/
def dedupAdjOff : Option Nat → List Nat → List Nat
  | _, [] => []
  | none, a :: rest => a :: dedupAdjOff (some a) rest
  | some o, a :: rest =>
    if a = o then dedupAdjOff (some o) rest
    else a :: dedupAdjOff (some a) rest

/-- Embeds `scan_slave_headers` (unimg.c:246-289): scan, then sort and dedup. -/
def scan_slave_headers (d : List Nat) : List WrldHeader := finalize (scanHits d)

/-- Embeds `copy_img_slice` (unimg.c:292-312): chunked copy of `img[start, stop)`
to the sink, stopping early when the source is exhausted, so exactly the bytes
of the range that exist are produced. -/
def copy_img_slice (img : List Nat) (start stop : Nat) : List Nat :=
  (img.drop start).take (stop - start)

/-- Observable outcome of one `write_wrld` call: the C return code, the bytes
written to the output file, and whether the two `[warn]` diagnostics
(continuation beyond IMG / continuation clipped) were logged. -/
structure WriteResult where
  rc : Int
  out : List Nat
  warnBeyond : Bool
  warnClip : Bool
deriving Repr, DecidableEq

/-- Embeds `write_wrld` (unimg.c:314-351).  `openOk` models `fopen` succeeding
and `hdrOk` models the 32-byte header `fwrite` returning 32 (on a failed
header write the handful of partially-written bytes is not modelled; no claim
inspects them).  `need = (total_size >= 32) ? total_size - 32 : 0` is exactly
truncated subtraction. -/
def write_wrld (openOk hdrOk : Bool) (h : WrldHeader) (decomp img : List Nat) :
    WriteResult :=
  if openOk = false then { rc := -1, out := [], warnBeyond := false, warnClip := false }
  else if hdrOk = false then { rc := -2, out := [], warnBeyond := false, warnClip := false }
  else
    let hdrBytes := (decomp.drop h.lvz_off).take 32
    let start := h.continuation
    let stop := start + (h.total_size - 32)
    if img.length < start then
      { rc := 0, out := hdrBytes, warnBeyond := true, warnClip := false }
    else if img.length < stop then
      { rc := 0, out := hdrBytes ++ copy_img_slice img start img.length,
        warnBeyond := false, warnClip := true }
    else
      { rc := 0, out := hdrBytes ++ copy_img_slice img start stop,
        warnBeyond := false, warnClip := false }

/-- Embeds the per-record loop of `main` (unimg.c:439-447): reconstruct every
header in order, count the records whose `write_wrld` returned 0, and record
each return code (a nonzero code is logged as `[warn] failed to write`).
Each record carries its own `openOk`/`hdrOk` I/O outcome. -/
def driveRecords (decomp img : List Nat) :
    List (Bool × Bool × WrldHeader) → Nat × List Int
  | [] => (0, [])
  | (oOk, hOk, h) :: rest =>
    let res := write_wrld oOk hOk h decomp img
    let acc := driveRecords decomp img rest
    ((if res.rc = 0 then acc.1 + 1 else acc.1), res.rc :: acc.2)

/-- Initial capacity of the inflate output buffer (unimg.c:174-175):
`cap = in_len * 3 + 1024; if (cap < 4096) cap = 4096;`. -/
def initCap (in_len : Nat) : Nat :=
  if in_len * 3 + 1024 < 4096 then 4096 else in_len * 3 + 1024

/-- Capacity growth on exhaustion (unimg.c:184): `cap = cap * 2 + 8192`. -/
def growCap (cap : Nat) : Nat := cap * 2 + 8192

/-- Capacity of the inflate output buffer for input length `in_len` after `k`
exhaustion-triggered growths (unimg.c:174-185). -/
def capAfterGrows (in_len : Nat) : Nat → Nat
  | 0 => initCap in_len
  | k+1 => growCap (capAfterGrows in_len k)

/-- Embeds `maybe_decompress_lvz` (unimg.c:209-225).  The zlib decoder is
external, so an inflate attempt is a parameter `tryInf` mapping the
`windowBits` argument to `some output` (success) or `none` (failure); the
window-bits values 15, 16+15 and -15 select the zlib, gzip and raw-DEFLATE
framings, tried in that order.  When all three fail, the input is copied
verbatim (unimg.c:222-224). -/
def maybe_decompress_lvz (tryInf : Int → Option (List Nat)) (input : List Nat) :
    List Nat :=
  match tryInf 15 with
  | some d => d
  | none =>
    match tryInf 31 with
    | some d => d
    | none =>
      match tryInf (-15) with
      | some d => d
      | none => input

/-- Embeds the exit-code skeleton of `main` (unimg.c:358-457): 1 for bad
invocation (`argc != 2`), 2 when the derived IMG file does not exist, 3 when
the decompressed index is under 32 bytes, 4 when no valid header is found,
5 when the IMG file cannot be opened, 0 on success.  `imgExists` and
`imgOpenOk` model the two filesystem probes; the LVZ is assumed readable
(its read failures go through `die`, outside the five specified codes). -/
def mainRun (argc : Nat) (imgExists : Bool) (tryInf : Int → Option (List Nat))
    (lvzRaw : List Nat) (imgOpenOk : Bool) : Nat :=
  if argc ≠ 2 then 1
  else if imgExists = false then 2
  else
    let decomp := maybe_decompress_lvz tryInf lvzRaw
    if decomp.length < 32 then 3
    else if (scan_slave_headers decomp).length = 0 then 4
    else if imgOpenOk = false then 5
    else 0

/-! ## Concrete example data -/

/-- A 32-byte buffer holding one valid header at offset 0: marker `D L R W`,
`total_size` bytes 40,1,1,1 (well above 32) and nonzero `continuation`. -/
def exBuf : List Nat :=
  [68,76,82,87, 1,2,3,4, 40,1,1,1, 5,6,7,8,
   9,10,11,12, 13,14,15,16, 50,1,1,1, 17,18,19,20]

/-- A 40-byte buffer holding two valid headers whose 32-byte regions overlap:
one at offset 0 (its `total_size` field bytes happen to spell a second marker)
and one at offset 8. -/
def exBuf2 : List Nat :=
  [68,76,82,87, 1,2,3,4, 68,76,82,87, 5,6,7,8,
   33,1,1,1, 9,10,11,12, 50,1,1,1, 13,14,15,16,
   51,1,1,1, 21,22,23,24]

/-- The header the scanner collects from `exBuf`. -/
def exHdr : WrldHeader := mkHeader exBuf 0

/-- The spec's clipping example: `continuation = 50`, `total_size = 112`. -/
def exHdr100 : WrldHeader := ⟨0, 0, 112, 0, 0, 0, 50, 0⟩

/-- The spec's beyond-range example: `continuation = 150`. -/
def exHdr150 : WrldHeader := ⟨0, 0, 112, 0, 0, 0, 150, 0⟩

/-- Headers with `lvz_off` values 5, 5, 3, 9 (the spec's dedup example); the
two offset-5 entries differ in their other fields. -/
def exC4 : List WrldHeader :=
  [⟨5, 10, 42, 0, 0, 0, 7, 0⟩, ⟨5, 20, 52, 0, 0, 0, 8, 0⟩,
   ⟨3, 30, 62, 0, 0, 0, 9, 0⟩, ⟨9, 40, 72, 0, 0, 0, 10, 0⟩]

/-- One comparator-sorted permutation of `exC4`. -/
def exC4sorted : List WrldHeader :=
  [⟨3, 30, 62, 0, 0, 0, 9, 0⟩, ⟨5, 10, 42, 0, 0, 0, 7, 0⟩,
   ⟨5, 20, 52, 0, 0, 0, 8, 0⟩, ⟨9, 40, 72, 0, 0, 0, 10, 0⟩]

/-- Two headers sharing offset 5 but differing in their other fields. -/
def exDup : List WrldHeader :=
  [⟨5, 10, 42, 0, 0, 0, 7, 0⟩, ⟨5, 20, 52, 0, 0, 0, 8, 0⟩]

/-- The other comparator-sorted permutation of `exDup`: the two equal-key
entries swapped, equally valid as a `qsort` result. -/
def exDupSwapped : List WrldHeader :=
  [⟨5, 20, 52, 0, 0, 0, 8, 0⟩, ⟨5, 10, 42, 0, 0, 0, 7, 0⟩]

/-- First record's output file fails to open; second succeeds. -/
def exRecs : List (Bool × Bool × WrldHeader) :=
  [(false, true, exHdr), (true, true, exHdr)]

/-! ## Properties of the marker search -/

theorem isMarkerAt_iff (d : List Nat) (j : Nat) :
    isMarkerAt d j = true ↔
      d.getD j 0 = 68 ∧ d.getD (j+1) 0 = 76 ∧ d.getD (j+2) 0 = 82 ∧
        d.getD (j+3) 0 = 87 := by
  simp [isMarkerAt, Bool.and_eq_true, and_assoc]

/-- Two distinct marker occurrences are at least 4 bytes apart: the marker
`D L R W` cannot overlap itself. -/
theorem marker_apart {d : List Nat} {j k : Nat}
    (hj : isMarkerAt d j = true) (hk : isMarkerAt d k = true) (hlt : j < k) :
    j + 4 ≤ k := by
  rw [isMarkerAt_iff] at hj hk
  by_contra hcon
  have : k = j + 1 ∨ k = j + 2 ∨ k = j + 3 := by omega
  rcases this with h | h | h <;> subst h <;> omega

theorem findMarkerAux_ge (d : List Nat) :
    ∀ fuel i, i ≤ findMarkerAux d i fuel := by
  intro fuel
  induction fuel with
  | zero => intro i; simp [findMarkerAux]
  | succ fuel ih =>
    intro i
    simp only [findMarkerAux]
    split
    · split
      · exact Nat.le_refl i
      · exact Nat.le_trans (Nat.le_succ i) (ih (i+1))
    · exact Nat.le_refl i

theorem findMarkerAux_marker (d : List Nat) :
    ∀ fuel i, d.length ≤ fuel + i →
      findMarkerAux d i fuel + 4 ≤ d.length →
      isMarkerAt d (findMarkerAux d i fuel) = true := by
  intro fuel
  induction fuel with
  | zero =>
    intro i hsuf hin
    simp only [findMarkerAux] at hin ⊢
    omega
  | succ fuel ih =>
    intro i hsuf hin
    simp only [findMarkerAux] at hin ⊢
    split
    · rename_i hlen
      by_cases hm : isMarkerAt d i
      · simp [hm]
      · simp only [hm, if_false]
        have hin' : findMarkerAux d (i+1) fuel + 4 ≤ d.length := by
          simpa [hlen, hm] using hin
        exact ih (i+1) (by omega) hin'
    · rename_i hlen
      simp only [hlen, if_false] at hin

theorem findMarkerAux_min (d : List Nat) :
    ∀ fuel i k, d.length ≤ fuel + i → i ≤ k → k + 4 ≤ d.length →
      isMarkerAt d k = true → findMarkerAux d i fuel ≤ k := by
  intro fuel
  induction fuel with
  | zero =>
    intro i k hsuf hik hk _
    omega
  | succ fuel ih =>
    intro i k hsuf hik hk hmk
    simp only [findMarkerAux]
    split
    · by_cases hm : isMarkerAt d i
      · simpa [hm]
      · simp only [hm, if_false]
        have hik' : i + 1 ≤ k := by
          rcases Nat.lt_or_ge i k with h | h
          · omega
          · have : i = k := by omega
            subst this
            exact absurd hmk (by simpa using hm)
        exact ih (i+1) k (by omega) hik' hk hmk
    · rename_i hlen
      omega

theorem findMarker_ge (d : List Nat) (i : Nat) : i ≤ findMarker d i :=
  findMarkerAux_ge d d.length i

theorem findMarker_marker (d : List Nat) (i : Nat)
    (h : findMarker d i + 4 ≤ d.length) : isMarkerAt d (findMarker d i) = true :=
  findMarkerAux_marker d d.length i (by omega) h

theorem findMarker_min (d : List Nat) {i k : Nat} (hik : i ≤ k)
    (hk : k + 4 ≤ d.length) (hmk : isMarkerAt d k = true) :
    findMarker d i ≤ k :=
  findMarkerAux_min d d.length i k (by omega) hik hk hmk

/-! ## Membership characterization for the scan loop -/

theorem mem_scanLoop (d : List Nat) :
    ∀ fuel i h, d.length + 1 ≤ fuel + i →
      (h ∈ scanLoop d i fuel ↔
        ∃ j, i ≤ j ∧ isMarkerAt d j = true ∧ j + 32 ≤ d.length ∧
          32 ≤ read_u32le d (j+8) ∧ read_u32le d (j+24) ≠ 0 ∧ h = mkHeader d j) := by
  intro fuel
  induction fuel with
  | zero =>
    intro i h hsuf
    constructor
    · intro hmem
      simp [scanLoop] at hmem
    · rintro ⟨j, hij, -, hj32, -, -, -⟩
      exact absurd hj32 (by omega)
  | succ fuel ih =>
    intro i h hsuf
    simp only [scanLoop]
    have hge : i ≤ findMarker d i := findMarker_ge d i
    by_cases hb : findMarker d i + 32 ≤ d.length
    · rw [if_pos hb]
      have hm0 : isMarkerAt d (findMarker d i) = true :=
        findMarker_marker d i (by omega)
      have hsuf' : d.length + 1 ≤ fuel + (findMarker d i + 4) := by omega
      by_cases hv : 32 ≤ (mkHeader d (findMarker d i)).total_size ∧
          (mkHeader d (findMarker d i)).continuation ≠ 0
      · rw [if_pos hv]
        constructor
        · intro hmem
          rcases List.mem_cons.mp hmem with hmem | hmem
          · exact ⟨findMarker d i, hge, hm0, hb, hv.1, hv.2, hmem⟩
          · rcases (ih (findMarker d i + 4) h hsuf').mp hmem with
              ⟨j, hij, hmj, hj32, hts, hct, hh⟩
            exact ⟨j, by omega, hmj, hj32, hts, hct, hh⟩
        · rintro ⟨j, hij, hmj, hj32, hts, hct, rfl⟩
          have hmin : findMarker d i ≤ j := findMarker_min d hij (by omega) hmj
          rcases Nat.eq_or_lt_of_le hmin with heq | hlt
          · exact List.mem_cons.mpr (Or.inl (by rw [heq]))
          · have hsep : findMarker d i + 4 ≤ j := marker_apart hm0 hmj hlt
            exact List.mem_cons.mpr (Or.inr ((ih (findMarker d i + 4) _ hsuf').mpr
              ⟨j, hsep, hmj, hj32, hts, hct, rfl⟩))
      · rw [if_neg hv]
        constructor
        · intro hmem
          rcases (ih (findMarker d i + 4) h hsuf').mp hmem with
            ⟨j, hij, hmj, hj32, hts, hct, hh⟩
          exact ⟨j, by omega, hmj, hj32, hts, hct, hh⟩
        · rintro ⟨j, hij, hmj, hj32, hts, hct, rfl⟩
          have hmin : findMarker d i ≤ j := findMarker_min d hij (by omega) hmj
          rcases Nat.eq_or_lt_of_le hmin with heq | hlt
          · exact absurd ⟨by rw [← heq] at hts; exact hts,
              by rw [← heq] at hct; exact hct⟩ hv
          · have hsep : findMarker d i + 4 ≤ j := marker_apart hm0 hmj hlt
            exact (ih (findMarker d i + 4) _ hsuf').mpr
              ⟨j, hsep, hmj, hj32, hts, hct, rfl⟩
    · rw [if_neg hb]
      constructor
      · intro hmem
        simp at hmem
      · rintro ⟨j, hij, hmj, hj32, -, -, -⟩
        have hmin : findMarker d i ≤ j := findMarker_min d hij (by omega) hmj
        exact absurd hj32 (by omega)

theorem mem_scanHits (d : List Nat) (h : WrldHeader) :
    h ∈ scanHits d ↔
      ∃ j, isMarkerAt d j = true ∧ j + 32 ≤ d.length ∧
        32 ≤ read_u32le d (j+8) ∧ read_u32le d (j+24) ≠ 0 ∧ h = mkHeader d j := by
  rw [scanHits, mem_scanLoop d (d.length + 1) 0 h (by omega)]
  simp [Nat.zero_le]

/-! ## Properties of the sort-and-dedup pass -/

theorem mem_dedupAdj_sub :
    ∀ (l : List WrldHeader) (s : Option Nat) (h : WrldHeader),
      h ∈ dedupAdj s l → h ∈ l
  | [], _, h => by simp [dedupAdj]
  | a :: rest, none, h => by
    simp only [dedupAdj, List.mem_cons]
    rintro (rfl | hm)
    · exact Or.inl rfl
    · exact Or.inr (mem_dedupAdj_sub rest _ h hm)
  | a :: rest, some o, h => by
    simp only [dedupAdj]
    split
    · intro hm
      exact List.mem_cons.mpr (Or.inr (mem_dedupAdj_sub rest _ h hm))
    · intro hm
      rcases List.mem_cons.mp hm with rfl | hm
      · exact List.mem_cons_self _ _
      · exact List.mem_cons.mpr (Or.inr (mem_dedupAdj_sub rest _ h hm))

theorem off_mem_dedupAdj_some :
    ∀ (l : List WrldHeader) (v o : Nat), o ≠ v →
      (∃ h ∈ l, h.lvz_off = o) → ∃ h ∈ dedupAdj (some v) l, h.lvz_off = o
  | [], v, o, _, hex => by
    rcases hex with ⟨h, hm, -⟩
    exact absurd hm (List.not_mem_nil h)
  | a :: rest, v, o, hne, hex => by
    simp only [dedupAdj]
    split
    · rename_i hav
      rcases hex with ⟨h, hm, rfl⟩
      rcases List.mem_cons.mp hm with rfl | hm
      · exact absurd hav hne
      · exact off_mem_dedupAdj_some rest v _ hne ⟨h, hm, rfl⟩
    · rename_i hav
      rcases hex with ⟨h, hm, rfl⟩
      rcases List.mem_cons.mp hm with rfl | hm
      · exact ⟨h, List.mem_cons_self _ _, rfl⟩
      · by_cases hoa : h.lvz_off = a.lvz_off
        · exact ⟨a, List.mem_cons_self _ _, hoa.symm⟩
        · rcases off_mem_dedupAdj_some rest a.lvz_off _ hoa ⟨h, hm, rfl⟩ with
            ⟨h', hm', hoff'⟩
          exact ⟨h', List.mem_cons.mpr (Or.inr hm'), hoff'⟩

theorem off_mem_dedupAdj_none (l : List WrldHeader) (o : Nat)
    (hex : ∃ h ∈ l, h.lvz_off = o) : ∃ h ∈ dedupAdj none l, h.lvz_off = o := by
  match l with
  | [] =>
    rcases hex with ⟨h, hm, -⟩
    exact absurd hm (List.not_mem_nil h)
  | a :: rest =>
    simp only [dedupAdj]
    rcases hex with ⟨h, hm, rfl⟩
    rcases List.mem_cons.mp hm with rfl | hm
    · exact ⟨h, List.mem_cons_self _ _, rfl⟩
    · by_cases hoa : h.lvz_off = a.lvz_off
      · exact ⟨a, List.mem_cons_self _ _, hoa.symm⟩
      · rcases off_mem_dedupAdj_some rest a.lvz_off _ hoa ⟨h, hm, rfl⟩ with
          ⟨h', hm', hoff'⟩
        exact ⟨h', List.mem_cons.mpr (Or.inr hm'), hoff'⟩

theorem mem_finalize_sub {l : List WrldHeader} {h : WrldHeader}
    (hm : h ∈ finalize l) : h ∈ l :=
  (List.perm_insertionSort byOff l).subset (mem_dedupAdj_sub _ _ _ hm)

theorem off_mem_finalize (l : List WrldHeader) (o : Nat) :
    (∃ h ∈ finalize l, h.lvz_off = o) ↔ ∃ h ∈ l, h.lvz_off = o := by
  constructor
  · rintro ⟨h, hm, rfl⟩
    exact ⟨h, mem_finalize_sub hm, rfl⟩
  · rintro ⟨h, hm, rfl⟩
    exact off_mem_dedupAdj_none _ _
      ⟨h, (List.perm_insertionSort byOff l).mem_iff.mpr hm, rfl⟩

/-- Offset-level characterization of the scanner output: an offset `j` carries
a header in `scan_slave_headers d` exactly when the marker matches at `j` with
at least 32 bytes left and the `total_size`/`continuation` fields validate. -/
theorem scan_off_iff (d : List Nat) (j : Nat) (hlen : d.length ≤ 4294967296) :
    (∃ h ∈ scan_slave_headers d, h.lvz_off = j) ↔
      (isMarkerAt d j = true ∧ j + 32 ≤ d.length ∧
        32 ≤ read_u32le d (j+8) ∧ read_u32le d (j+24) ≠ 0) := by
  rw [scan_slave_headers, off_mem_finalize]
  constructor
  · rintro ⟨h, hm, rfl⟩
    rcases (mem_scanHits d h).mp hm with ⟨j', hmj, hj32, hts, hct, rfl⟩
    have hoff : (mkHeader d j').lvz_off = j' := Nat.mod_eq_of_lt (by omega)
    rw [hoff]
    exact ⟨hmj, hj32, hts, hct⟩
  · rintro ⟨hmj, hj32, hts, hct⟩
    refine ⟨mkHeader d j, (mem_scanHits d _).mpr ⟨j, hmj, hj32, hts, hct, rfl⟩, ?_⟩
    exact Nat.mod_eq_of_lt (by omega)

/-! ## Stability and ordering of `finalize` -/

theorem find?_off_cons_pos {o : Nat} (a : WrldHeader) (l : List WrldHeader)
    (h : (a.lvz_off == o) = true) :
    (a :: l).find? (fun x => x.lvz_off == o) = some a := by
  simp [List.find?_cons, h]

theorem find?_off_cons_neg {o : Nat} (a : WrldHeader) (l : List WrldHeader)
    (h : (a.lvz_off == o) = false) :
    (a :: l).find? (fun x => x.lvz_off == o) =
      l.find? (fun x => x.lvz_off == o) := by
  simp [List.find?_cons, h]

theorem dedupAdj_some_spec :
    ∀ (l : List WrldHeader) (v : Nat),
      List.Pairwise byOff l → (∀ a ∈ l, v ≤ a.lvz_off) →
      (∀ h ∈ dedupAdj (some v) l, v < h.lvz_off ∧
          l.find? (fun x => x.lvz_off == h.lvz_off) = some h) ∧
        List.Pairwise (fun a b => a.lvz_off < b.lvz_off) (dedupAdj (some v) l)
  | [], v, _, _ => by simp [dedupAdj]
  | a :: t, v, hp, hv => by
    have hp1 : ∀ b ∈ t, a.lvz_off ≤ b.lvz_off := fun b hb =>
      (List.pairwise_cons.mp hp).1 b hb
    have hp2 : List.Pairwise byOff t := (List.pairwise_cons.mp hp).2
    have hva : v ≤ a.lvz_off := hv a (List.mem_cons_self _ _)
    simp only [dedupAdj]
    split
    · rename_i hav
      have hvt : ∀ b ∈ t, v ≤ b.lvz_off := fun b hb => by
        have := hp1 b hb
        omega
      rcases dedupAdj_some_spec t v hp2 hvt with ⟨hmem, hpw⟩
      refine ⟨fun h hm => ?_, hpw⟩
      rcases hmem h hm with ⟨hlt, hfind⟩
      have hane : (a.lvz_off == h.lvz_off) = false := by
        simp only [beq_eq_false_iff_ne, ne_eq]
        omega
      rw [find?_off_cons_neg a _ hane]
      exact ⟨hlt, hfind⟩
    · rename_i hav
      have hva' : v < a.lvz_off := by omega
      rcases dedupAdj_some_spec t a.lvz_off hp2 hp1 with ⟨hmem, hpw⟩
      constructor
      · intro h hm
        rcases List.mem_cons.mp hm with rfl | hm
        · exact ⟨hva', find?_off_cons_pos h _ (by simp)⟩
        · rcases hmem h hm with ⟨hlt, hfind⟩
          have hane : (a.lvz_off == h.lvz_off) = false := by
            simp only [beq_eq_false_iff_ne, ne_eq]
            omega
          rw [find?_off_cons_neg a _ hane]
          exact ⟨by omega, hfind⟩
      · refine List.pairwise_cons.mpr ⟨fun b hb => ?_, hpw⟩
        exact (hmem b hb).1

theorem dedupAdj_none_spec (l : List WrldHeader) (hs : List.Pairwise byOff l) :
    (∀ h ∈ dedupAdj none l,
        l.find? (fun x => x.lvz_off == h.lvz_off) = some h) ∧
      List.Pairwise (fun a b => a.lvz_off < b.lvz_off) (dedupAdj none l) := by
  match l with
  | [] =>
    exact ⟨fun h hm => absurd hm (List.not_mem_nil h), List.Pairwise.nil⟩
  | a :: t =>
    have hp1 : ∀ b ∈ t, a.lvz_off ≤ b.lvz_off := fun b hb =>
      (List.pairwise_cons.mp hs).1 b hb
    have hp2 : List.Pairwise byOff t := (List.pairwise_cons.mp hs).2
    rcases dedupAdj_some_spec t a.lvz_off hp2 hp1 with ⟨hmem, hpw⟩
    simp only [dedupAdj]
    constructor
    · intro h hm
      rcases List.mem_cons.mp hm with rfl | hm
      · exact find?_off_cons_pos h _ (by simp)
      · rcases hmem h hm with ⟨hlt, hfind⟩
        have hane : (a.lvz_off == h.lvz_off) = false := by
          simp only [beq_eq_false_iff_ne, ne_eq]
          omega
        rw [find?_off_cons_neg a _ hane]
        exact hfind
    · refine List.pairwise_cons.mpr ⟨fun b hb => ?_, hpw⟩
      exact (hmem b hb).1

theorem map_off_dedupAdj :
    ∀ (xs : List WrldHeader) (acc : Option Nat),
      (dedupAdj acc xs).map (fun h => h.lvz_off) =
        dedupAdjOff acc (xs.map (fun h => h.lvz_off))
  | [], acc => by cases acc <;> simp [dedupAdj, dedupAdjOff]
  | a :: rest, none => by
    simp only [dedupAdj, dedupAdjOff, List.map_cons]
    rw [map_off_dedupAdj rest]
  | a :: rest, some o => by
    simp only [dedupAdj, dedupAdjOff, List.map_cons]
    split_ifs with hao
    · exact map_off_dedupAdj rest (some o)
    · simp only [List.map_cons]
      rw [map_off_dedupAdj rest]

/-- Any comparator-sorted permutation of `exC4` carries the offset sequence
`[3, 5, 5, 9]`, whichever of the two equal-offset entries comes first. -/
theorem sorted_perm_map_off_exC4 (s : List WrldHeader)
    (hp : List.Perm s exC4) (hs : List.Pairwise byOff s) :
    s.map (fun h => h.lvz_off) = [3, 5, 5, 9] :=
  List.eq_of_perm_of_sorted
    ((hp.map (fun h => h.lvz_off)).trans (by decide))
    (List.pairwise_map.mpr hs) (by decide)

/-! ## Driver loop characterization -/

theorem driveRecords_spec (decomp img : List Nat) :
    ∀ records : List (Bool × Bool × WrldHeader),
      (driveRecords decomp img records).2 =
        records.map (fun r => (write_wrld r.1 r.2.1 r.2.2 decomp img).rc) ∧
      (driveRecords decomp img records).1 =
        ((driveRecords decomp img records).2.filter (fun rc => rc == 0)).length
  | [] => by simp [driveRecords]
  | (oOk, hOk, h) :: rest => by
    rcases driveRecords_spec decomp img rest with ⟨ih1, ih2⟩
    simp only [driveRecords, List.map_cons]
    constructor
    · rw [ih1]
    · by_cases hrc : (write_wrld oOk hOk h decomp img).rc = 0
      · simp [hrc, List.filter_cons, ih2]
      · simp [hrc, List.filter_cons, ih2]

/-- A record whose output file cannot be opened, or whose 32-byte header write
fails, yields a nonzero `write_wrld` return code (unimg.c:317-327). -/
theorem write_wrld_fail_rc (oOk hOk : Bool) (h : WrldHeader)
    (decomp img : List Nat) (hfail : oOk = false ∨ hOk = false) :
    (write_wrld oOk hOk h decomp img).rc ≠ 0 := by
  rcases hfail with rfl | rfl
  · simp [write_wrld]
  · by_cases ho : oOk = false
    · simp [write_wrld, ho]
    · simp [write_wrld, ho]

/-! ## Claims -/

/-- C1: for every input buffer, a 4-byte `D L R W` marker match at position
`j` produces a header in the scanner's output if and only if
`j + 32 ≤ len(buf)`, the little-endian u32 at `j+0x08` (`total_size`) is
`≥ 32`, and the little-endian u32 at `j+0x18` (`continuation`) is nonzero;
a marker occurrence failing any of these conditions never yields a header at
offset `j`.  (Buffer lengths are bounded by `2^32` so that the stored
32-bit offset coincides with the match position.) -/
theorem C1_scanner_filter (d : List Nat) (j : Nat)
    (hlen : d.length ≤ 4294967296) (hm : isMarkerAt d j = true) :
    (∃ h ∈ scan_slave_headers d, h.lvz_off = j) ↔
      (j + 32 ≤ d.length ∧ 32 ≤ read_u32le d (j+8) ∧
        read_u32le d (j+24) ≠ 0) := by
  rw [scan_off_iff d j hlen]
  simp [hm]

theorem C1_scanner_filter_witness :
    exBuf.length ≤ 4294967296 ∧ isMarkerAt exBuf 0 = true ∧
      ((∃ h ∈ scan_slave_headers exBuf, h.lvz_off = 0) ↔
        (0 + 32 ≤ exBuf.length ∧ 32 ≤ read_u32le exBuf (0+8) ∧
          read_u32le exBuf (0+24) ≠ 0)) :=
  ⟨by decide, by decide, C1_scanner_filter exBuf 0 (by decide) (by decide)⟩

/-- C2: a header whose `continuation` lies inside the payload but whose body
range `[continuation, continuation + total_size - 32)` overruns it is clipped
to `payload_size`: the record is written as the 32 header bytes followed by
exactly the payload bytes `[continuation, payload_size)` — so no position at
or beyond `payload_size` is read — the clip warning is logged, and the output
is `32 + (payload_size - continuation)` bytes. -/
theorem C2_clipping (h : WrldHeader) (decomp img : List Nat)
    (hdec : h.lvz_off + 32 ≤ decomp.length)
    (hstart : h.continuation ≤ img.length)
    (hover : img.length < h.continuation + (h.total_size - 32)) :
    (write_wrld true true h decomp img).rc = 0 ∧
    (write_wrld true true h decomp img).warnClip = true ∧
    (write_wrld true true h decomp img).warnBeyond = false ∧
    (write_wrld true true h decomp img).out =
      (decomp.drop h.lvz_off).take 32 ++
        copy_img_slice img h.continuation img.length ∧
    (write_wrld true true h decomp img).out.length =
      32 + (img.length - h.continuation) := by
  have hnb : ¬ (img.length < h.continuation) := Nat.not_lt.mpr hstart
  simp only [write_wrld, if_neg (by simp : ¬ (true = false)), if_neg hnb,
    if_pos hover]
  refine ⟨trivial, trivial, trivial, trivial, ?_⟩
  simp only [copy_img_slice, List.length_append, List.length_take,
    List.length_drop]
  omega

theorem C2_clipping_witness :
    exHdr100.lvz_off + 32 ≤ exBuf.length ∧
      exHdr100.continuation ≤ (List.replicate 100 7).length ∧
      (List.replicate 100 7).length <
        exHdr100.continuation + (exHdr100.total_size - 32) ∧
      (write_wrld true true exHdr100 exBuf (List.replicate 100 7)).out.length =
        32 + ((List.replicate 100 7).length - exHdr100.continuation) :=
  ⟨by decide, by decide, by decide,
    (C2_clipping exHdr100 exBuf (List.replicate 100 7) (by decide) (by decide)
      (by decide)).2.2.2.2⟩

/-- C3: a header whose `continuation` lies strictly beyond the payload is
written as the 32 raw header bytes only (32-byte total output, no body), the
beyond-range warning is logged, the return code is success, and the driver
counts the record as written. -/
theorem C3_beyond_range (h : WrldHeader) (decomp img : List Nat)
    (hdec : h.lvz_off + 32 ≤ decomp.length)
    (hbeyond : img.length < h.continuation) :
    (write_wrld true true h decomp img).rc = 0 ∧
    (write_wrld true true h decomp img).out = (decomp.drop h.lvz_off).take 32 ∧
    (write_wrld true true h decomp img).out.length = 32 ∧
    (write_wrld true true h decomp img).warnBeyond = true ∧
    (∀ rest, (driveRecords decomp img ((true, true, h) :: rest)).1 =
      (driveRecords decomp img rest).1 + 1) := by
  have hw : write_wrld true true h decomp img =
      { rc := 0, out := (decomp.drop h.lvz_off).take 32,
        warnBeyond := true, warnClip := false } := by
    simp only [write_wrld, if_neg (by simp : ¬ (true = false)), if_pos hbeyond]
  refine ⟨by rw [hw], by rw [hw], ?_, by rw [hw], ?_⟩
  · rw [hw]
    simp only [List.length_take, List.length_drop]
    omega
  · intro rest
    simp only [driveRecords, hw]
    rfl

theorem C3_beyond_range_witness :
    exHdr150.lvz_off + 32 ≤ exBuf.length ∧
      (List.replicate 100 7).length < exHdr150.continuation ∧
      (write_wrld true true exHdr150 exBuf (List.replicate 100 7)).out.length
        = 32 ∧
      (driveRecords exBuf (List.replicate 100 7)
        [(true, true, exHdr150)]).1 = 1 :=
  ⟨by decide, by decide,
    (C3_beyond_range exHdr150 exBuf (List.replicate 100 7) (by decide)
      (by decide)).2.2.1,
    by
      have := (C3_beyond_range exHdr150 exBuf (List.replicate 100 7)
        (by decide) (by decide)).2.2.2.2 []
      simpa [driveRecords] using this⟩

/-- C4 (counterexample): C's `qsort` leaves the relative order of equal-key
entries unspecified, so `exDupSwapped` is as legitimate a `qsort` result for
the input `exDup` as the identity order (it is a permutation of `exDup`,
sorted under the comparator); the dedup pass applied to it keeps
`⟨5, 20, …⟩`, which differs from the input's first occurrence at offset 5
(`exDup.find?` returns `⟨5, 10, …⟩`).  Hence the program does not guarantee
that finalize keeps the first occurrence among equal-offset entries. -/
theorem C4_first_occurrence_counterexample :
    qsortByOff exDupSwapped exDup ∧
      dedupAdj none exDupSwapped = [⟨5, 20, 52, 0, 0, 0, 8, 0⟩] ∧
      exDup.find? (fun x => x.lvz_off == 5) =
        some ⟨5, 10, 42, 0, 0, 0, 7, 0⟩ ∧
      (⟨5, 20, 52, 0, 0, 0, 8, 0⟩ : WrldHeader) ≠ ⟨5, 10, 42, 0, 0, 0, 7, 0⟩ :=
  ⟨⟨by decide, by decide⟩, by decide, by decide, by decide⟩

/-- C4 (amended): for every input list of headers and every sort order
consistent with `cmp_by_lvz_off` — `qsortByOff s l` captures exactly what C
guarantees for `qsort`, the particular run `finalize` uses included (first
conjunct) — the sort-and-dedup step returns a collection strictly ascending
by `index_offset` (each distinct offset exactly once), every surviving entry
is one of the input's entries (which of several equal-offset entries
survives is unspecified), the surviving offsets are exactly the input's
offsets, and in particular input offsets 5, 5, 3, 9 yield `[3, 5, 9]` under
every valid sort order. -/
theorem C4_finalize_sort_dedup (l s : List WrldHeader) (hq : qsortByOff s l) :
    qsortByOff (List.insertionSort byOff l) l ∧
    List.Pairwise (fun a b => a.lvz_off < b.lvz_off) (dedupAdj none s) ∧
    (∀ h ∈ dedupAdj none s, h ∈ l) ∧
    (∀ o, (∃ h ∈ dedupAdj none s, h.lvz_off = o) ↔ ∃ h ∈ l, h.lvz_off = o) ∧
    (List.Perm s exC4 →
      (dedupAdj none s).map (fun h => h.lvz_off) = [3, 5, 9]) := by
  rcases hq with ⟨hperm, hsort⟩
  refine ⟨⟨List.perm_insertionSort byOff l, List.sorted_insertionSort byOff l⟩,
    (dedupAdj_none_spec s hsort).2, ?_, ?_, ?_⟩
  · intro h hm
    exact hperm.subset (mem_dedupAdj_sub s none h hm)
  · intro o
    constructor
    · rintro ⟨h, hm, rfl⟩
      exact ⟨h, hperm.subset (mem_dedupAdj_sub s none h hm), rfl⟩
    · rintro ⟨h, hm, rfl⟩
      exact off_mem_dedupAdj_none s _ ⟨h, hperm.symm.subset hm, rfl⟩
  · intro hpc
    rw [map_off_dedupAdj s none, sorted_perm_map_off_exC4 s hpc hsort]
    rfl

theorem C4_finalize_sort_dedup_witness :
    qsortByOff exC4sorted exC4 ∧
      (dedupAdj none exC4sorted).map (fun h => h.lvz_off) = [3, 5, 9] := by
  have hq : qsortByOff exC4sorted exC4 := ⟨by decide, by decide⟩
  exact ⟨hq, (C4_finalize_sort_dedup exC4 exC4sorted hq).2.2.2.2 (by decide)⟩

/-- C5: when all three inflate attempts (zlib `windowBits = 15`, then gzip
`windowBits = 31`, then raw DEFLATE `windowBits = -15`, tried in that fixed
order) fail, the decompression resolver returns a byte sequence identical to
its input. -/
theorem C5_verbatim_fallback (tryInf : Int → Option (List Nat))
    (input : List Nat) (h15 : tryInf 15 = none) (h31 : tryInf 31 = none)
    (hraw : tryInf (-15) = none) :
    maybe_decompress_lvz tryInf input = input := by
  simp [maybe_decompress_lvz, h15, h31, hraw]

theorem C5_verbatim_fallback_witness :
    maybe_decompress_lvz (fun _ => none) [1, 2, 3] = [1, 2, 3] :=
  C5_verbatim_fallback (fun _ => none) [1, 2, 3] rfl rfl rfl

/-- C6 (counterexample): the inflate output buffer for an empty input does
not start at `3 * 0 + 1024` bytes — the code raises any initial capacity
below 4096 to 4096 (unimg.c:175), which the claim omits. -/
theorem C6_initial_capacity_counterexample :
    ¬ (capAfterGrows 0 0 = 3 * 0 + 1024) := by decide

/-- C6 (amended): each attempt's output buffer starts with capacity
`3 * input_len + 1024` raised to a minimum of 4096 — i.e. exactly
`3 * input_len + 1024` once `input_len ≥ 1024`, and 4096 for shorter inputs —
and every exhaustion doubles the capacity and adds 8192. -/
theorem C6_capacity_schedule :
    (∀ n, 1024 ≤ n → capAfterGrows n 0 = 3 * n + 1024) ∧
    (∀ n, n < 1024 → capAfterGrows n 0 = 4096) ∧
    (∀ n k, capAfterGrows n (k+1) = 2 * capAfterGrows n k + 8192) := by
  refine ⟨fun n hn => ?_, fun n hn => ?_, fun n k => ?_⟩
  · simp only [capAfterGrows, initCap]
    rw [if_neg (by omega)]
    omega
  · simp only [capAfterGrows, initCap]
    rw [if_pos (by omega)]
  · simp only [capAfterGrows, growCap]
    omega

theorem C6_capacity_schedule_witness :
    capAfterGrows 2048 0 = 3 * 2048 + 1024 ∧ capAfterGrows 10 0 = 4096 ∧
      capAfterGrows 7 3 = 2 * capAfterGrows 7 2 + 8192 :=
  ⟨C6_capacity_schedule.1 2048 (by decide), C6_capacity_schedule.2.1 10 (by decide),
    C6_capacity_schedule.2.2 7 2⟩

/-- C7: the run exits 0 on success, and the five fatal conditions — bad
invocation, missing IMG payload, decompressed index under 32 bytes, zero
valid headers, IMG open failure — map to exit codes 1, 2, 3, 4, 5 in that
priority order, pairwise distinct and distinct from 0. -/
theorem C7_exit_codes (argc : Nat) (imgExists : Bool)
    (tryInf : Int → Option (List Nat)) (lvzRaw : List Nat) (imgOpenOk : Bool) :
    (argc ≠ 2 → mainRun argc imgExists tryInf lvzRaw imgOpenOk = 1) ∧
    (argc = 2 → imgExists = false →
      mainRun argc imgExists tryInf lvzRaw imgOpenOk = 2) ∧
    (argc = 2 → imgExists = true →
      (maybe_decompress_lvz tryInf lvzRaw).length < 32 →
      mainRun argc imgExists tryInf lvzRaw imgOpenOk = 3) ∧
    (argc = 2 → imgExists = true →
      ¬ (maybe_decompress_lvz tryInf lvzRaw).length < 32 →
      (scan_slave_headers (maybe_decompress_lvz tryInf lvzRaw)).length = 0 →
      mainRun argc imgExists tryInf lvzRaw imgOpenOk = 4) ∧
    (argc = 2 → imgExists = true →
      ¬ (maybe_decompress_lvz tryInf lvzRaw).length < 32 →
      (scan_slave_headers (maybe_decompress_lvz tryInf lvzRaw)).length ≠ 0 →
      imgOpenOk = false →
      mainRun argc imgExists tryInf lvzRaw imgOpenOk = 5) ∧
    (argc = 2 → imgExists = true →
      ¬ (maybe_decompress_lvz tryInf lvzRaw).length < 32 →
      (scan_slave_headers (maybe_decompress_lvz tryInf lvzRaw)).length ≠ 0 →
      imgOpenOk = true →
      mainRun argc imgExists tryInf lvzRaw imgOpenOk = 0) ∧
    ((1 : Nat) ≠ 2 ∧ (1 : Nat) ≠ 3 ∧ (1 : Nat) ≠ 4 ∧ (1 : Nat) ≠ 5 ∧
      (2 : Nat) ≠ 3 ∧ (2 : Nat) ≠ 4 ∧ (2 : Nat) ≠ 5 ∧ (3 : Nat) ≠ 4 ∧
      (3 : Nat) ≠ 5 ∧ (4 : Nat) ≠ 5 ∧ (1 : Nat) ≠ 0 ∧ (2 : Nat) ≠ 0 ∧
      (3 : Nat) ≠ 0 ∧ (4 : Nat) ≠ 0 ∧ (5 : Nat) ≠ 0) := by
  refine ⟨fun h1 => ?_, fun h1 h2 => ?_, fun h1 h2 h3 => ?_,
    fun h1 h2 h3 h4 => ?_, fun h1 h2 h3 h4 h5 => ?_,
    fun h1 h2 h3 h4 h5 => ?_, by decide⟩
  · simp [mainRun, h1]
  · subst h1 h2
    simp [mainRun]
  · subst h1 h2
    simp [mainRun, h3]
  · subst h1 h2
    simp [mainRun, h3, h4]
  · subst h1 h2 h5
    simp [mainRun, h3, h4]
  · subst h1 h2 h5
    simp [mainRun, h3, h4]

theorem C7_exit_codes_witness :
    mainRun 3 true (fun _ => none) [] true = 1 ∧
    mainRun 2 false (fun _ => none) [] true = 2 ∧
    mainRun 2 true (fun _ => none) [] true = 3 ∧
    mainRun 2 true (fun _ => none) (List.replicate 32 0) true = 4 ∧
    mainRun 2 true (fun _ => none) exBuf false = 5 ∧
    mainRun 2 true (fun _ => none) exBuf true = 0 :=
  ⟨(C7_exit_codes 3 true (fun _ => none) [] true).1 (by decide),
    (C7_exit_codes 2 false (fun _ => none) [] true).2.1 rfl rfl,
    (C7_exit_codes 2 true (fun _ => none) [] true).2.2.1 rfl rfl (by decide),
    (C7_exit_codes 2 true (fun _ => none) (List.replicate 32 0) true).2.2.2.1
      rfl rfl (by decide) (by decide),
    (C7_exit_codes 2 true (fun _ => none) exBuf false).2.2.2.2.1
      rfl rfl (by decide) (by decide) rfl,
    (C7_exit_codes 2 true (fun _ => none) exBuf true).2.2.2.2.2.1
      rfl rfl (by decide) (by decide) rfl⟩

/-- C8: a failure reconstructing one record (its output file cannot be opened
or its 32-byte header write fails) does not abort the batch: every record
still gets processed (one return code per input record, each the
`write_wrld` result for that record), the failed record's code is nonzero
(hence logged as a write failure), and the final written count tallies only
the successful records, so it excludes the failed one and stays below the
record count. -/
theorem C8_per_record_recovery (decomp img : List Nat)
    (records : List (Bool × Bool × WrldHeader)) (k : Nat)
    (hk : k < records.length)
    (hfail : records[k].1 = false ∨ records[k].2.1 = false) :
    (driveRecords decomp img records).2 =
      records.map (fun r => (write_wrld r.1 r.2.1 r.2.2 decomp img).rc) ∧
    (driveRecords decomp img records).2.length = records.length ∧
    (driveRecords decomp img records).2.getD k 0 ≠ 0 ∧
    (driveRecords decomp img records).1 =
      ((driveRecords decomp img records).2.filter (fun rc => rc == 0)).length ∧
    (driveRecords decomp img records).1 < records.length := by
  rcases driveRecords_spec decomp img records with ⟨hmap, hcount⟩
  have hlen : (driveRecords decomp img records).2.length = records.length := by
    rw [hmap, List.length_map]
  have hk2 : k < (driveRecords decomp img records).2.length := by omega
  have hgd : (driveRecords decomp img records).2.getD k 0 =
      (write_wrld records[k].1 records[k].2.1 records[k].2.2 decomp img).rc := by
    rw [List.getD_eq_getElem _ 0 hk2]
    simp only [hmap, List.getElem_map]
  have hne : (write_wrld records[k].1 records[k].2.1 records[k].2.2
      decomp img).rc ≠ 0 :=
    write_wrld_fail_rc records[k].1 records[k].2.1 records[k].2.2 decomp img hfail
  have hmem : (driveRecords decomp img records).2.getD k 0 ∈
      (driveRecords decomp img records).2 := by
    rw [List.getD_eq_getElem _ 0 hk2]
    exact List.getElem_mem hk2
  have hlt : ((driveRecords decomp img records).2.filter
      (fun rc => rc == 0)).length < (driveRecords decomp img records).2.length :=
    List.length_filter_lt_length_iff_exists.mpr
      ⟨_, hmem, by rw [hgd]; simpa using hne⟩
  exact ⟨hmap, hlen, by rw [hgd]; exact hne, hcount, by omega⟩

theorem C8_per_record_recovery_witness :
    0 < exRecs.length ∧
      (driveRecords exBuf exBuf exRecs).2.length = exRecs.length ∧
      (driveRecords exBuf exBuf exRecs).2.getD 0 0 ≠ 0 ∧
      (driveRecords exBuf exBuf exRecs).1 < exRecs.length := by
  have h := C8_per_record_recovery exBuf exBuf exRecs 0 (by decide)
    (Or.inl (by decide))
  exact ⟨by decide, h.2.1, h.2.2.1, h.2.2.2.2⟩

/-- C9: invariant of the scanner's output — every collected header `h` has
its full 32 bytes inside the buffer, the marker bytes `D L R W` at
`h.lvz_off`, a validated `total_size ≥ 32` and `continuation ≠ 0`, and each
of its seven non-offset fields equal to the little-endian u32 read at
`h.lvz_off + 0x04 … 0x1C`. -/
theorem C9_scanner_output_invariant (d : List Nat) (h : WrldHeader)
    (hlen : d.length ≤ 4294967296) (hmem : h ∈ scan_slave_headers d) :
    h.lvz_off + 32 ≤ d.length ∧
    d.getD h.lvz_off 0 = 68 ∧ d.getD (h.lvz_off+1) 0 = 76 ∧
    d.getD (h.lvz_off+2) 0 = 82 ∧ d.getD (h.lvz_off+3) 0 = 87 ∧
    32 ≤ h.total_size ∧ h.continuation ≠ 0 ∧
    h.wrld_type = read_u32le d (h.lvz_off+4) ∧
    h.total_size = read_u32le d (h.lvz_off+8) ∧
    h.global0 = read_u32le d (h.lvz_off+12) ∧
    h.global1 = read_u32le d (h.lvz_off+16) ∧
    h.global_count = read_u32le d (h.lvz_off+20) ∧
    h.continuation = read_u32le d (h.lvz_off+24) ∧
    h.reserved = read_u32le d (h.lvz_off+28) := by
  have hmem' : h ∈ scanHits d := mem_finalize_sub hmem
  rcases (mem_scanHits d h).mp hmem' with ⟨j, hmj, hj32, hts, hct, rfl⟩
  have hoff : (mkHeader d j).lvz_off = j := Nat.mod_eq_of_lt (by omega)
  rw [hoff, isMarkerAt_iff] at *
  exact ⟨hj32, hmj.1, hmj.2.1, hmj.2.2.1, hmj.2.2.2, hts, hct,
    rfl, rfl, rfl, rfl, rfl, rfl, rfl⟩

theorem C9_scanner_output_invariant_witness :
    exBuf.length ≤ 4294967296 ∧ exHdr ∈ scan_slave_headers exBuf ∧
      exHdr.lvz_off + 32 ≤ exBuf.length ∧ 32 ≤ exHdr.total_size ∧
      exHdr.continuation ≠ 0 ∧
      exHdr.continuation = read_u32le exBuf (exHdr.lvz_off+24) := by
  have h := C9_scanner_output_invariant exBuf exHdr (by decide) (by decide)
  exact ⟨by decide, by decide, h.1, h.2.2.2.2.2.1, h.2.2.2.2.2.2.1,
    h.2.2.2.2.2.2.2.2.2.2.2.2.1⟩

/-- C10: the scanner resumes at `j + 4` after accepting a valid header at
`j`, not at `j + 32`, so a second valid header whose offset lies strictly
inside the first header's 32 bytes (at any offset `≥ j + 4`) is also
collected, and the final collection may contain headers whose 32-byte
regions overlap. -/
theorem C10_overlapping_headers (d : List Nat) (j j' : Nat)
    (hlen : d.length ≤ 4294967296)
    (hm1 : isMarkerAt d j = true) (hm2 : isMarkerAt d j' = true)
    (hsep : j + 4 ≤ j') (hin : j' ≤ j + 31) (hb2 : j' + 32 ≤ d.length)
    (hts1 : 32 ≤ read_u32le d (j+8)) (hct1 : read_u32le d (j+24) ≠ 0)
    (hts2 : 32 ≤ read_u32le d (j'+8)) (hct2 : read_u32le d (j'+24) ≠ 0) :
    (∃ h ∈ scan_slave_headers d, h.lvz_off = j) ∧
    (∃ h ∈ scan_slave_headers d, h.lvz_off = j') ∧
    j' < j + 32 :=
  ⟨(scan_off_iff d j hlen).mpr ⟨hm1, by omega, hts1, hct1⟩,
    (scan_off_iff d j' hlen).mpr ⟨hm2, hb2, hts2, hct2⟩, by omega⟩

theorem C10_overlapping_headers_witness :
    isMarkerAt exBuf2 0 = true ∧ isMarkerAt exBuf2 8 = true ∧
      (∃ h ∈ scan_slave_headers exBuf2, h.lvz_off = 0) ∧
      (∃ h ∈ scan_slave_headers exBuf2, h.lvz_off = 8) ∧
      (8 : Nat) < 0 + 32 := by
  have h := C10_overlapping_headers exBuf2 0 8 (by decide) (by decide)
    (by decide) (by decide) (by decide) (by decide) (by decide) (by decide)
    (by decide) (by decide)
  exact ⟨by decide, by decide, h.1, h.2.1, h.2.2⟩

end UnImg
